import Mathlib

/-
Verification of the fading-backprop unlearning framework.

This file gives a shallow embedding of the core algorithmic pieces of the
repository and proves (or refutes) the specification claims about them.

Tensors are modelled as lists of scalars (rationals where the code only does
exact field arithmetic and comparisons, reals where it takes square roots,
real powers or arc-tangents).  Per-parameter auxiliary state
(disruption_score, to_forget, grad) is modelled as record fields.
-/

/- ===================== Definitions ===================== -/

/-- Pooled quantile threshold, from src/adversarial_adaptation.py lines 57-58
(the inline form of the get_threshold helper used by seek_and_destroy.py):
  k = int(quantile * sum(s.numel() for s in scores.values()))
  threshold = pt.cat([s.flatten() for s in scores.values()]).kthvalue(k).values
torch.kthvalue returns the k-th smallest element, 1-indexed, and raises when
k < 1 or k > numel; the error case is modelled as none. -/
def get_threshold {α : Type} [LinearOrder α] (quantile : ℚ) (scores : List (List α)) :
    Option α :=
  let pooled := scores.flatten
  let k := (⌊quantile * pooled.length⌋).toNat
  let sorted := pooled.insertionSort (· ≤ ·)
  if h : k - 1 < sorted.length ∧ 1 ≤ k then some (sorted.get ⟨k - 1, h.1⟩) else none

/-- Elementwise disruption-score update, from src/seek_and_destroy.py
lines 124-126 (identically src/adversarial_adapters.py lines 133-135):
  param.disruption_score *= disruption_score_decay
  param.disruption_score += param.grad.abs() ** retain_amp -/
noncomputable def disruption_update (decay amp : ℝ) (score grad : ℝ) : ℝ :=
  score * decay + |grad| ^ amp

/-- One in-place disruption-score update over a whole parameter tensor. -/
noncomputable def update_disruption_scores (decay amp : ℝ) (scores grads : List ℝ) :
    List ℝ :=
  scores.zipWith (fun s g => disruption_update decay amp s g) grads

/-- One intervened parameter of seek_and_destroy.py: the live weight tensor,
its disruption score, its precomputed circuit tensor to_forget, and the
optimizer gradient slot (none models a gradient zeroed with set_to_none). -/
structure SDParam where
  weight : List ℝ
  disruption_score : List ℝ
  to_forget : List ℝ
  grad : Option (List ℝ)

/-- Derived per-weight score, from src/seek_and_destroy.py line 110:
  mask_fn = lambda param: param.disruption_score / param.to_forget.abs() ** forget_amp -/
noncomputable def mask_fn (forget_amp : ℝ) (p : SDParam) : List ℝ :=
  p.disruption_score.zipWith (fun s c => s / |c| ^ forget_amp) p.to_forget

/-- model.zero_grad(set_to_none=True) on one parameter. -/
def zero_grad (p : SDParam) : SDParam :=
  { p with grad := none }

/-- Gradient-slot assignment of src/seek_and_destroy.py lines 146-147:
  mask = mask_fn(param) < threshold
  param.grad = mask * param.to_forget -/
noncomputable def sd_apply_mask (forget_amp threshold : ℝ) (p : SDParam) : SDParam :=
  { p with
    grad := some ((mask_fn forget_amp p).zipWith
      (fun s c => if s < threshold then c else 0) p.to_forget) }

/-- One plain SGD step, w -= lr * grad; a parameter whose gradient slot is
none is left untouched (modelled by a zero gradient). -/
def sgd_step (lr : ℝ) (p : SDParam) : SDParam :=
  { p with
    weight := p.weight.zipWith (fun w g => w - lr * g)
      (p.grad.getD (List.replicate p.weight.length 0)) }

/-- The unlearn sub-step of src/seek_and_destroy.py lines 139-149: compute the
pooled threshold from the derived scores, zero all gradients, overwrite each
intervened parameter's gradient slot with mask * to_forget, and step the base
SGD optimizer.  none models the torch error when k falls outside 1..N. -/
noncomputable def sd_unlearn_substep (quantile : ℚ) (forget_amp lr : ℝ)
    (params : List SDParam) : Option (List SDParam) :=
  match get_threshold quantile (params.map (mask_fn forget_amp)) with
  | none => none
  | some t => some (params.map (fun p => sgd_step lr (sd_apply_mask forget_amp t (zero_grad p))))

/-- One intervened parameter of src/adversarial_adapters.py: its disruption
score and the task-loss gradient left by loss.backward() on the forget batch.
forget_amp is the Python int literal 1 (line 79), so the power is a natural
power and all arithmetic stays rational. -/
structure AAParam where
  disruption_score : List ℚ
  grad : List ℚ

/-- Derived per-weight score, from src/adversarial_adapters.py line 85:
  mask_fn = lambda param: param.disruption_score / param.grad.abs() ** forget_amp -/
def aa_mask_fn (forget_amp : ℕ) (p : AAParam) : List ℚ :=
  p.disruption_score.zipWith (fun s g => s / |g| ^ forget_amp) p.grad

/-- Gradient-slot contents after the masking of src/adversarial_adapters.py
lines 150-155 (threshold from pooled scores, then param.grad *= mask),
before the global normalization. -/
def aa_masked_grads (forget_amp : ℕ) (quantile : ℚ) (params : List AAParam) :
    Option (List (List ℚ)) :=
  (get_threshold quantile (params.map (aa_mask_fn forget_amp))).map (fun t =>
    params.map (fun p =>
      (aa_mask_fn forget_amp p).zipWith (fun s g => if s < t then g else 0) p.grad))

/-- Sum of squared entries of a tensor. -/
def sumSq (l : List ℝ) : ℝ := (l.map (fun x => x ^ 2)).sum

/-- torch Tensor.norm(): the L2 norm of one parameter's gradient. -/
noncomputable def l2norm (l : List ℝ) : ℝ := Real.sqrt (sumSq l)

/-- Pooled gradient norm, from src/adversarial_adapters.py line 158:
  grad_norm = sum(p.grad.norm() ** 2 for p in interven_params) ** 0.5 -/
noncomputable def grad_norm (grads : List (List ℝ)) : ℝ :=
  Real.sqrt ((grads.map (fun g => l2norm g ^ 2)).sum)

/-- Gradient normalization, from src/adversarial_adapters.py lines 159-160:
  for p in interven_params: p.grad /= grad_norm
There is no guard against grad_norm == 0. -/
noncomputable def normalize_grads (grads : List (List ℝ)) : List (List ℝ) :=
  grads.map (fun g => g.map (fun x => x / grad_norm grads))

/-- An evaluated loss: a float that is either NaN or an ordinary value.
Comparisons against NaN are false, as for IEEE floats. -/
inductive LossVal
  | nan
  | val (q : ℚ)
deriving DecidableEq

/-- Float greater-than with NaN semantics: NaN > t is false. -/
def lossGT : LossVal → ℚ → Bool
  | .nan, _ => false
  | .val x, t => t < x

/-- Float less-than with NaN semantics: NaN < t is false. -/
def lossLT : LossVal → ℚ → Bool
  | .nan, _ => false
  | .val x, t => x < t

/-- pt.isnan on a loss value. -/
def isnanLoss : LossVal → Bool
  | .nan => true
  | .val _ => false

/-- The four losses computed by the periodic evaluation of
src/adversarial_adapters.py lines 174-180, in dict insertion order. -/
structure EvalRes where
  base_forget : LossVal
  base_retain : LossVal
  adv_forget : LossVal
  adv_retain : LossVal
deriving DecidableEq

/-- Reason codes for pruning a trial. -/
inductive PruneReason
  | retainBroken
  | forgetStalled
  | loraDefeaten
  | nanLosses
deriving DecidableEq

/-- Outcome of one evaluation-gate check. -/
inductive GateDecision
  | keepGoing
  | pruned (r : PruneReason)
deriving DecidableEq

/-- any(pt.isnan(v) for v in res.values()), src/adversarial_adapters.py line 200. -/
def hasNaN (res : EvalRes) : Bool :=
  isnanLoss res.base_forget || isnanLoss res.base_retain ||
    isnanLoss res.adv_forget || isnanLoss res.adv_retain

/-- The evaluation gate of src/adversarial_adapters.py lines 184-202, with the
four pruning rules in source order: retain broken (base_retain >
init_retain + 0.1), forget stalled (step >= 30 and base_forget <
init_forget + 0.05), adversarial lora defeaten (adv_forget > 50), and NaN
losses, each raising optuna.TrialPruned. -/
def evalGate (step : ℕ) (init_forget init_retain : ℚ) (res : EvalRes) : GateDecision :=
  if lossGT res.base_retain (init_retain + 1/10) then .pruned .retainBroken
  else if 30 ≤ step ∧ lossLT res.base_forget (init_forget + 1/20) then .pruned .forgetStalled
  else if lossGT res.adv_forget 50 then .pruned .loraDefeaten
  else if hasNaN res then .pruned .nanLosses
  else .keepGoing

/-- The three disjoint trainable-subset groups of src/adversarial_adapters.py:
the intervened base-layer weights, the retain helper lora, and the
adversarial lora. -/
inductive TGroup
  | intervened
  | retAdapter
  | advAdapter
deriving DecidableEq

/-- The three sub-steps of one iteration of the unlearning loop. -/
inductive SubStep
  | retainStep
  | unlearnStep
  | adversaryStep
deriving DecidableEq

/-- Which groups each sub-step passes to only_grad_on, from
src/adversarial_adapters.py: line 128
only_grad_on(model, interven_params + ret_lora_params), line 146
only_grad_on(model, interven_params), line 166
only_grad_on(model, adv_lora_params). -/
def only_grad_on_groups : SubStep → List TGroup
  | .retainStep => [.intervened, .retAdapter]
  | .unlearnStep => [.intervened]
  | .adversaryStep => [.advAdapter]

/-- Whether a group's parameters have requires_grad set during a sub-step's
forward/backward pair. -/
def gradEnabled (s : SubStep) (g : TGroup) : Bool :=
  decide (g ∈ only_grad_on_groups s)

/-- How many of the three groups have gradient tracking enabled during a
sub-step. -/
def countEnabled (s : SubStep) : ℕ :=
  ([TGroup.intervened, TGroup.retAdapter, TGroup.advAdapter].filter (gradEnabled s)).length

/-- Angle between the forget direction and the current gradient in degrees,
folded into [0, 180), from src/seek_and_destroy_no_abs.py lines 100-101:
  alpha = pt.atan2(p.to_forget, p.grad) / math.pi * 180
  alpha = alpha % 180
fmod is the Python float modulo a - b * floor(a / b). -/
noncomputable def atan2 (y x : ℝ) : ℝ :=
  if 0 < x then Real.arctan (y / x)
  else if x < 0 ∧ 0 ≤ y then Real.arctan (y / x) + Real.pi
  else if x < 0 then Real.arctan (y / x) - Real.pi
  else if 0 < y then Real.pi / 2
  else if y < 0 then -(Real.pi / 2)
  else 0

/-- Python float modulo: a % b = a - b * floor(a / b). -/
noncomputable def fmod (a b : ℝ) : ℝ := a - b * ⌊a / b⌋

/-- The per-weight angle used by the angle-based mask. -/
noncomputable def alphaDeg (to_forget grad : ℝ) : ℝ :=
  fmod (atan2 to_forget grad / Real.pi * 180) 180

/-- The angle-based mask of src/seek_and_destroy_no_abs.py lines 98-106, per
weight:
  _forget_big = p.to_forget.abs() > forget_thresh
  mask = (alpha < alpha_thresh) and _forget_big and (alpha > alpha_low_thresh) -/
def angleMask (forget_thresh alpha_low_thresh alpha_thresh : ℝ)
    (to_forget grad : ℝ) : Prop :=
  alphaDeg to_forget grad < alpha_thresh ∧ forget_thresh < |to_forget| ∧
    alpha_low_thresh < alphaDeg to_forget grad

/-- Python min over the relearn-attack loss trajectory, from
src/seek_and_destroy.py lines 161-163:
  forget_losses = relearn(...)
  forget_loss = min(forget_losses)
Python min raises on an empty sequence, modelled as none. -/
def trialFitness : List ℚ → Option ℚ
  | [] => none
  | x :: xs => some (xs.foldl min x)

/-- Substring test over raw character lists, the model of the Python
`"embed" in name` containment check. -/
def containsSub (sub s : List Char) : Bool :=
  (List.range (s.length + 1)).any (fun i => sub.isPrefixOf (s.drop i))

/-- load_circuit from src/src/utils.py lines 62-68: load the circuit mapping
and delete every entry whose parameter name contains "embed".  The mapping is
modelled as an association list from names to tensors. -/
def load_circuit {T : Type} (circ : List (List Char × T)) : List (List Char × T) :=
  circ.filter (fun e => !containsSub "embed".toList e.1)

/- ===================== Helper lemmas ===================== -/

/-- In a sorted list, fewer than or exactly i elements lie strictly below the
element at index i. -/
theorem countP_lt_le_of_sorted {l : List ℚ} (hs : l.Sorted (· ≤ ·)) (i : ℕ)
    (hi : i < l.length) :
    l.countP (fun x => decide (x < l.get ⟨i, hi⟩)) ≤ i := by
  set v := l.get ⟨i, hi⟩ with hv
  have hsplit : l.countP (fun x => decide (x < v)) =
      (l.take i).countP (fun x => decide (x < v)) +
        (l.drop i).countP (fun x => decide (x < v)) := by
    conv_lhs => rw [← List.take_append_drop i l]
    exact List.countP_append _ _ _
  have h2 : (l.drop i).countP (fun x => decide (x < v)) = 0 := by
    refine List.countP_eq_zero.mpr ?_
    intro a ha
    obtain ⟨j, hj, rfl⟩ := List.mem_iff_getElem.mp ha
    have hjl : i + j < l.length := by
      have h3 := hj
      simp [List.length_drop] at h3
      omega
    simp only [List.getElem_drop, decide_eq_true_eq]
    refine not_lt.mpr ?_
    rw [hv]
    have := hs.rel_get_of_le (a := ⟨i, hi⟩) (b := ⟨i + j, hjl⟩) (by simp [Fin.le_def])
    simpa [List.get_eq_getElem] using this
  have h1 : (l.take i).countP (fun x => decide (x < v)) ≤ i :=
    le_trans (List.countP_le_length _) (by simp)
  omega

/-- In a sorted list, at least i + 1 elements lie at or below the element at
index i. -/
theorem le_countP_le_of_sorted {l : List ℚ} (hs : l.Sorted (· ≤ ·)) (i : ℕ)
    (hi : i < l.length) :
    i + 1 ≤ l.countP (fun x => decide (x ≤ l.get ⟨i, hi⟩)) := by
  set v := l.get ⟨i, hi⟩ with hv
  have hsplit : l.countP (fun x => decide (x ≤ v)) =
      (l.take (i + 1)).countP (fun x => decide (x ≤ v)) +
        (l.drop (i + 1)).countP (fun x => decide (x ≤ v)) := by
    conv_lhs => rw [← List.take_append_drop (i + 1) l]
    exact List.countP_append _ _ _
  have hall : (l.take (i + 1)).countP (fun x => decide (x ≤ v)) =
      (l.take (i + 1)).length := by
    refine List.countP_eq_length.mpr ?_
    intro a ha
    obtain ⟨j, hj, rfl⟩ := List.mem_iff_getElem.mp ha
    simp only [List.getElem_take, decide_eq_true_eq]
    rw [hv]
    have hjl : j < l.length := by
      have h3 := hj
      simp [List.length_take] at h3
      omega
    have hji : j ≤ i := by
      have h3 := hj
      simp [List.length_take] at h3
      omega
    have := hs.rel_get_of_le (a := ⟨j, hjl⟩) (b := ⟨i, hi⟩) (by simp [Fin.le_def, hji])
    simpa [List.get_eq_getElem] using this
  have hlen : (l.take (i + 1)).length = i + 1 := by
    simp [List.length_take]
    omega
  omega

/-- One disruption-score update from an all-zero score tensor yields the
amplified gradient magnitudes. -/
theorem update_from_zero (decay amp : ℝ) :
    ∀ g : List ℝ, update_disruption_scores decay amp (List.replicate g.length 0) g =
      g.map (fun x => |x| ^ amp)
  | [] => rfl
  | x :: xs => by
    simp only [update_disruption_scores, List.length_cons, List.replicate_succ,
      List.zipWith_cons_cons, List.map_cons]
    refine congrArg₂ _ ?_ (update_from_zero decay amp xs)
    simp [disruption_update]

/- ===================== Claim theorems ===================== -/

/-- Claim C1, counterexample.  The claim states that floor(q*N) elements of
the pooled collection lie strictly below the returned threshold.  With
q = 1/2 and pooled scores [10, 20, 30, 40] we have N = 4 and floor(q*N) = 2,
and the threshold operation returns the 2nd smallest element, 20; but only
one element (10) of the pooled collection is strictly below 20, not two. -/
theorem get_threshold_strict_below_cex :
    get_threshold (1/2) [[(10:ℚ),20],[30,40]] = some 20 ∧
      ¬ (([[(10:ℚ),20],[30,40]].flatten).countP (fun x => decide (x < 20)) =
          (⌊(1/2 : ℚ) * (([[(10:ℚ),20],[30,40]].flatten).length : ℚ)⌋).toNat) := by
  constructor
  · norm_num [get_threshold, List.insertionSort, List.orderedInsert]
    decide
  · norm_num [List.countP, List.countP.go]
    decide

/-- Claim C1, amended.  For every quantile q and every score collection on
which the threshold operation succeeds, it pools all derived scores into one
flat collection and returns its k-th smallest element (1-indexed) with
k = floor(q*N): the returned value is a member of the pooled collection, at
most k - 1 elements are strictly below it, and at least k elements are less
than or equal to it; the computation is a pure function of its input. -/
theorem get_threshold_order_statistics (q : ℚ) (scores : List (List ℚ)) (v : ℚ) (k : ℕ)
    (hsome : get_threshold q scores = some v)
    (hk : k = (⌊q * ((scores.flatten).length : ℚ)⌋).toNat) :
    v ∈ scores.flatten ∧
      (scores.flatten).countP (fun x => decide (x < v)) ≤ k - 1 ∧
      k ≤ (scores.flatten).countP (fun x => decide (x ≤ v)) := by
  subst hk
  unfold get_threshold at hsome
  simp only [] at hsome
  have hperm : (List.insertionSort (· ≤ ·) scores.flatten).Perm scores.flatten :=
    List.perm_insertionSort _ _
  have hsort : (List.insertionSort (· ≤ ·) scores.flatten).Sorted (· ≤ ·) :=
    List.sorted_insertionSort _ _
  split at hsome
  case isTrue h =>
    obtain ⟨h1, h2⟩ := h
    have hv : (List.insertionSort (· ≤ ·) scores.flatten).get
        ⟨(⌊q * ((scores.flatten).length : ℚ)⌋).toNat - 1, h1⟩ = v := by
      injection hsome
    refine ⟨?_, ?_, ?_⟩
    · rw [← hv]
      exact hperm.mem_iff.mp (List.get_mem _ _ _)
    · rw [← hperm.countP_eq, ← hv]
      exact countP_lt_le_of_sorted hsort _ h1
    · rw [← hperm.countP_eq, ← hv]
      have := le_countP_le_of_sorted hsort _ h1
      omega
  case isFalse => exact absurd hsome (by simp)

/-- Claim C1, witness: the amended theorem applied at q = 1/2 and pooled
scores [10, 20, 30, 40], where k = 2 and the returned threshold is 20. -/
theorem get_threshold_order_statistics_witness :
    (20:ℚ) ∈ [[(10:ℚ),20],[30,40]].flatten ∧
      ([[(10:ℚ),20],[30,40]].flatten).countP (fun x => decide (x < 20)) ≤ 2 - 1 ∧
      2 ≤ ([[(10:ℚ),20],[30,40]].flatten).countP (fun x => decide (x ≤ 20)) :=
  get_threshold_order_statistics (1/2) [[(10:ℚ),20],[30,40]] 20 2
    (by
      norm_num [get_threshold, List.insertionSort, List.orderedInsert]
      decide)
    (by
      norm_num
      decide)

/-- Claim C2, confirmed.  The in-place disruption-score update computes
score * decay + |grad| ^ amp elementwise: starting from a zero score tensor,
one update with gradient g yields |g| ^ amp, and a second update with
gradient g2 yields decay * |g1| ^ amp + |g2| ^ amp. -/
theorem disruption_score_recurrence (decay amp : ℝ) (g1 g2 : List ℝ) :
    update_disruption_scores decay amp (List.replicate g1.length 0) g1 =
      g1.map (fun x => |x| ^ amp) ∧
    update_disruption_scores decay amp
        (update_disruption_scores decay amp (List.replicate g1.length 0) g1) g2 =
      g1.zipWith (fun x y => decay * |x| ^ amp + |y| ^ amp) g2 := by
  refine ⟨update_from_zero decay amp g1, ?_⟩
  rw [update_from_zero decay amp g1]
  induction g1 generalizing g2 with
  | nil => simp [update_disruption_scores]
  | cons x xs ih =>
    cases g2 with
    | nil => simp [update_disruption_scores]
    | cons y ys =>
      simp only [List.map_cons, update_disruption_scores, List.zipWith_cons_cons]
      refine congrArg₂ _ ?_ (ih ys)
      simp [disruption_update, mul_comm]

/-- Claim C3, counterexample.  In the adversarial-adapters variant's unlearn
sub-step (src/adversarial_adapters.py lines 147-156) the optimizer gradient
slot after masking is mask * grad, the masked task-loss gradient, not
mask * to_forget: with identical precomputed disruption scores [1,2,3,4] and
quantile 3/4, changing only the backward-pass task gradient from [1,1,1,1] to
[1,2,1,1] changes the slot contents from [1,1,0,0] to [1,2,0,0], so the slot
depends on the task-loss gradient and is not a masked precomputed tensor
(that variant has no to_forget at all). -/
theorem aa_masked_grads_use_task_grad_cex :
    aa_masked_grads 1 (3/4) [⟨[1,2,3,4],[1,1,1,1]⟩] = some [[1,1,0,0]] ∧
    aa_masked_grads 1 (3/4) [⟨[1,2,3,4],[1,2,1,1]⟩] = some [[1,2,0,0]] ∧
    ([[(1:ℚ),1,0,0]] : List (List ℚ)) ≠ [[1,2,0,0]] := by
  refine ⟨?_, ?_, by decide⟩
  · norm_num [aa_masked_grads, aa_mask_fn, get_threshold, List.insertionSort,
      List.orderedInsert]
    decide
  · norm_num [aa_masked_grads, aa_mask_fn, get_threshold, List.insertionSort,
      List.orderedInsert]
    decide

/-- Claim C3, amended.  In the seek-and-destroy unlearn sub-step each
intervened parameter's gradient slot is overwritten with mask * to_forget
before the base optimizer steps, so the SGD update moves every weight by
-lr * (mask * to_forget); the sub-step's result is independent of whatever
task-loss gradient was previously held in the gradient slots (the
adversarial-adapters variant instead keeps the masked task-loss gradient, see
the counterexample). -/
theorem sd_unlearn_substep_overwrites_grad (q : ℚ) (famp lr : ℝ) (params : List SDParam) :
    sd_unlearn_substep q famp lr params =
      (get_threshold q (params.map (mask_fn famp))).map (fun t =>
        params.map (fun p =>
          { weight := p.weight.zipWith (fun w g => w - lr * g)
              ((mask_fn famp p).zipWith (fun s c => if s < t then c else 0) p.to_forget),
            disruption_score := p.disruption_score,
            to_forget := p.to_forget,
            grad := some ((mask_fn famp p).zipWith
              (fun s c => if s < t then c else 0) p.to_forget) })) ∧
    (∀ f : SDParam → Option (List ℝ),
      sd_unlearn_substep q famp lr (params.map (fun p => { p with grad := f p })) =
        sd_unlearn_substep q famp lr params) := by
  constructor
  · unfold sd_unlearn_substep
    cases h : get_threshold q (params.map (mask_fn famp)) with
    | none => rfl
    | some t =>
      simp only [Option.map_some']
      refine congrArg some (List.map_congr_left fun p _ => ?_)
      simp [sgd_step, sd_apply_mask, zero_grad, mask_fn]
  · intro f
    unfold sd_unlearn_substep
    have hmask : (params.map (fun p => { p with grad := f p })).map (mask_fn famp) =
        params.map (mask_fn famp) := by
      simp [List.map_map, Function.comp, mask_fn]
    rw [hmask]
    cases h : get_threshold q (params.map (mask_fn famp)) with
    | none => rfl
    | some t =>
      simp only [List.map_map]
      refine congrArg some (List.map_congr_left fun p _ => ?_)
      rfl

/-- Claim C4, counterexample.  The NaN rule is evaluated last, not first: with
init_forget = init_retain = 5 and losses (base_forget 5, base_retain 7,
adv_forget 0, adv_retain NaN) the evaluation results contain a NaN, yet the
gate reports the retain-collapse rule (7 > 5 + 0.1), not the NaN failure. -/
theorem evalGate_nan_rule_not_first_cex :
    evalGate 10 5 5 ⟨.val 5, .val 7, .val 0, .nan⟩ = .pruned .retainBroken ∧
      hasNaN ⟨.val 5, .val 7, .val 0, .nan⟩ = true ∧
      GateDecision.pruned .retainBroken ≠ .pruned .nanLosses := by
  refine ⟨?_, by decide, by decide⟩
  simp only [evalGate, lossGT]
  norm_num

/-- Claim C4, amended.  The abort rules are evaluated in the fixed source
order retain-collapse, forget-stagnation, adversary-defeat, NaN, with first
match winning; the NaN rule is last, so an evaluation result containing a NaN
still always aborts the trial, but the failure may be reported as one of the
three earlier rules when those also hold. -/
theorem evalGate_nan_always_aborts (step : ℕ) (init_forget init_retain : ℚ)
    (res : EvalRes) (h : hasNaN res = true) :
    evalGate step init_forget init_retain res ≠ .keepGoing := by
  unfold evalGate
  split_ifs <;> simp_all

/-- Claim C4, witness: an all-NaN evaluation result aborts the trial. -/
theorem evalGate_nan_always_aborts_witness :
    evalGate 10 5 5 ⟨.nan, .nan, .nan, .nan⟩ ≠ .keepGoing :=
  evalGate_nan_always_aborts 10 5 5 ⟨.nan, .nan, .nan, .nan⟩ (by decide)

/-- Claim C5, counterexample.  The lora_defeaten rule fires when the
adversary's forget loss rises above 50, not when it drops below a floor:
with benign other losses, an adversary forget loss of 0 (full recovery of
forget performance) lets the trial continue, while an adversary forget loss
of 100 (adversary doing terribly) aborts with lora_defeaten. -/
theorem evalGate_lora_defeaten_direction_cex :
    evalGate 10 5 5 ⟨.val 5, .val 5, .val 0, .val 5⟩ = .keepGoing ∧
      evalGate 10 5 5 ⟨.val 5, .val 5, .val 100, .val 5⟩ = .pruned .loraDefeaten := by
  constructor
  · simp only [evalGate, lossGT, lossLT, hasNaN, isnanLoss]
    norm_num
  · simp only [evalGate, lossGT, lossLT, hasNaN, isnanLoss]
    norm_num

/-- Claim C5, amended.  The gate aborts the trial with lora_defeaten exactly
when the adversary-configuration forget loss exceeds the hard-coded ceiling
50 (the cheap adversary has been defeated, its forget loss blown up) and no
earlier rule (retain collapse, forget stagnation) matched. -/
theorem evalGate_lora_defeaten_iff (step : ℕ) (init_forget init_retain : ℚ)
    (res : EvalRes) :
    evalGate step init_forget init_retain res = .pruned .loraDefeaten ↔
      (lossGT res.adv_forget 50 = true ∧
        lossGT res.base_retain (init_retain + 1/10) = false ∧
        ¬ (30 ≤ step ∧ lossLT res.base_forget (init_forget + 1/20) = true)) := by
  unfold evalGate
  split_ifs with h1 h2 h3 h4 <;> simp_all

/-- Claim C6, counterexample.  During the retain sub-step's forward/backward
pair, two trainable-subset groups have gradient tracking enabled at once: the
code calls only_grad_on(model, interven_params + ret_lora_params), so both
the intervened-base group and the retain-adapter group are enabled, and the
number of enabled groups is 2, not 1. -/
theorem retain_substep_two_groups_cex :
    gradEnabled .retainStep .intervened = true ∧
      gradEnabled .retainStep .retAdapter = true ∧
      countEnabled .retainStep ≠ 1 := by decide

/-- Claim C6, amended.  During the unlearn and adversary sub-steps exactly
one group has gradient tracking enabled (the intervened-base group and the
adversary-adapter group respectively); during the retain sub-step exactly
two groups are enabled simultaneously, the intervened-base group and the
retain-adapter group. -/
theorem gradEnabled_group_counts (s : SubStep) :
    countEnabled s = if s = .retainStep then 2 else 1 := by
  cases s <;> rfl

/-- arctan is positive on positive arguments. -/
theorem arctan_pos_of_pos {t : ℝ} (h : 0 < t) : 0 < Real.arctan t := by
  have := Real.arctan_strictMono h
  rwa [Real.arctan_zero] at this

/-- arctan is negative on negative arguments. -/
theorem arctan_neg_of_neg {t : ℝ} (h : t < 0) : Real.arctan t < 0 := by
  have := Real.arctan_strictMono h
  rwa [Real.arctan_zero] at this

/-- atan2 with a positive first argument lands strictly inside (0, pi). -/
theorem atan2_mem_pos {y x : ℝ} (hy : 0 < y) : atan2 y x ∈ Set.Ioo 0 Real.pi := by
  have hpi := Real.pi_pos
  unfold atan2
  rcases lt_trichotomy 0 x with hx | hx | hx
  · rw [if_pos hx]
    have hq : 0 < y / x := div_pos hy hx
    refine ⟨arctan_pos_of_pos hq, ?_⟩
    have := Real.arctan_lt_pi_div_two (y / x)
    linarith
  · rw [if_neg (by rw [← hx]; exact lt_irrefl 0),
      if_neg (by rw [← hx]; simp), if_neg (by rw [← hx]; simp), if_pos hy]
    constructor <;> linarith
  · rw [if_neg (by linarith), if_pos ⟨hx, le_of_lt hy⟩]
    have hq : y / x < 0 := div_neg_of_pos_of_neg hy hx
    have h1 : Real.arctan (y / x) < 0 := arctan_neg_of_neg hq
    have h2 := Real.neg_pi_div_two_lt_arctan (y / x)
    constructor <;> linarith

/-- atan2 with a negative first argument lands strictly inside (-pi, 0). -/
theorem atan2_mem_neg {y x : ℝ} (hy : y < 0) : atan2 y x ∈ Set.Ioo (-Real.pi) 0 := by
  have hpi := Real.pi_pos
  unfold atan2
  rcases lt_trichotomy 0 x with hx | hx | hx
  · rw [if_pos hx]
    have hq : y / x < 0 := div_neg_of_neg_of_pos hy hx
    refine ⟨?_, arctan_neg_of_neg hq⟩
    have := Real.neg_pi_div_two_lt_arctan (y / x)
    linarith
  · rw [if_neg (by rw [← hx]; exact lt_irrefl 0),
      if_neg (by rw [← hx]; simp), if_neg (by rw [← hx]; simp),
      if_neg (by linarith), if_pos hy]
    constructor <;> linarith
  · rw [if_neg (by linarith), if_neg (by push_neg; intro _; linarith), if_pos hx]
    have hq : 0 < y / x := div_pos_of_neg_of_neg hy hx
    have h1 : 0 < Real.arctan (y / x) := arctan_pos_of_pos hq
    have h2 := Real.arctan_lt_pi_div_two (y / x)
    constructor <;> linarith

/-- For a nonzero forget direction the folded angle lies strictly inside
(0, 180). -/
theorem alphaDeg_mem {tf g : ℝ} (h : tf ≠ 0) : alphaDeg tf g ∈ Set.Ioo (0:ℝ) 180 := by
  have hpi := Real.pi_pos
  unfold alphaDeg fmod
  have hdiv : atan2 tf g / Real.pi * 180 / 180 = atan2 tf g / Real.pi := by
    field_simp
    ring
  rcases h.lt_or_lt with htf | htf
  · obtain ⟨hlo, hhi⟩ := atan2_mem_neg (x := g) htf
    have hr1 : atan2 tf g / Real.pi < 0 := div_neg_of_neg_of_pos hhi hpi
    have hr2 : -1 < atan2 tf g / Real.pi := by
      rw [neg_lt, ← neg_div, div_lt_one hpi]
      linarith
    have hfloor : ⌊atan2 tf g / Real.pi * 180 / 180⌋ = -1 := by
      rw [hdiv, Int.floor_eq_iff]
      push_cast
      constructor <;> linarith
    rw [hfloor]
    push_cast
    have hb1 : atan2 tf g / Real.pi * 180 > -180 := by nlinarith
    have hb2 : atan2 tf g / Real.pi * 180 < 0 := by nlinarith
    constructor <;> linarith
  · obtain ⟨hlo, hhi⟩ := atan2_mem_pos (x := g) htf
    have hr1 : 0 < atan2 tf g / Real.pi := div_pos hlo hpi
    have hr2 : atan2 tf g / Real.pi < 1 := by
      rw [div_lt_one hpi]
      linarith
    have hfloor : ⌊atan2 tf g / Real.pi * 180 / 180⌋ = 0 := by
      rw [hdiv, Int.floor_eq_zero_iff]
      constructor <;> [linarith; linarith]
    rw [hfloor]
    push_cast
    have hb1 : 0 < atan2 tf g / Real.pi * 180 := by nlinarith
    have hb2 : atan2 tf g / Real.pi * 180 < 180 := by nlinarith
    constructor <;> linarith

/-- Claim C7, counterexample.  With forget_thresh = 0, alpha_low_thresh = 0,
alpha_thresh = 180, a weight whose forget-direction entry is 0 (and gradient
1) is NOT selected: the strict test |to_forget| > 0 fails, so the mask is not
all-true for every input. -/
theorem angleMask_zero_forget_cex : ¬ angleMask 0 0 180 0 1 := by
  intro h
  have h2 := h.2.1
  simp at h2

/-- Claim C7, amended.  For the boundary configuration forget_thresh = 0,
alpha_low_thresh = 0, alpha_thresh = 180, the angle band degenerates to no
filtering and every weight whose forget-direction entry is nonzero is
selected, for every gradient value; weights with a zero forget-direction
entry are never selected because the magnitude floor is a strict inequality. -/
theorem angleMask_all_true_of_nonzero (tf g : ℝ) (h : tf ≠ 0) :
    angleMask 0 0 180 tf g := by
  obtain ⟨h1, h2⟩ := alphaDeg_mem (g := g) h
  exact ⟨h2, abs_pos.mpr h, h1⟩

/-- Claim C7, witness: with forget direction 1 and gradient 1 the boundary
mask selects the weight. -/
theorem angleMask_all_true_witness : angleMask 0 0 180 1 1 :=
  angleMask_all_true_of_nonzero 1 1 (by norm_num)

/-- Folding min over a list never exceeds the initial accumulator. -/
theorem foldl_min_le_init (xs : List ℚ) : ∀ a : ℚ, xs.foldl min a ≤ a := by
  induction xs with
  | nil => simp
  | cons x xs ih =>
    intro a
    simp only [List.foldl_cons]
    exact le_trans (ih (min a x)) (min_le_left a x)

/-- Folding min over a list never exceeds any list element. -/
theorem foldl_min_le_of_mem (xs : List ℚ) : ∀ (a x : ℚ), x ∈ xs → xs.foldl min a ≤ x := by
  induction xs with
  | nil => intro a x hx; cases hx
  | cons y ys ih =>
    intro a x hx
    rcases List.mem_cons.mp hx with rfl | hx
    · simp only [List.foldl_cons]
      exact le_trans (foldl_min_le_init ys (min a x)) (min_le_right a x)
    · exact ih _ x hx

/-- Folding min over a list yields the accumulator or a list element. -/
theorem foldl_min_mem (xs : List ℚ) : ∀ a : ℚ, xs.foldl min a = a ∨ xs.foldl min a ∈ xs := by
  induction xs with
  | nil => intro a; left; rfl
  | cons y ys ih =>
    intro a
    simp only [List.foldl_cons]
    rcases ih (min a y) with h | h
    · rw [h]
      rcases min_choice a y with h2 | h2
      · left; exact h2
      · right; rw [h2]; exact List.mem_cons_self y ys
    · right; exact List.mem_cons_of_mem y h

/-- Claim C8, confirmed.  For every sequence of logged forget losses on which
the fitness computation succeeds (any non-empty trajectory), the trial's
scalar fitness is the minimum loss observed over the whole relearn-attack
trajectory: it is one of the logged losses and is less than or equal to every
logged loss, in particular to the final one. -/
theorem trial_fitness_is_min (losses : List ℚ) (m : ℚ)
    (h : trialFitness losses = some m) :
    m ∈ losses ∧ ∀ x ∈ losses, m ≤ x := by
  cases losses with
  | nil => exact absurd h (by simp [trialFitness])
  | cons x xs =>
    have hm : xs.foldl min x = m := by
      simpa [trialFitness] using h
    constructor
    · rcases foldl_min_mem xs x with h2 | h2
      · rw [← hm, h2]; exact List.mem_cons_self x xs
      · rw [← hm]; exact List.mem_cons_of_mem x h2
    · intro y hy
      rcases List.mem_cons.mp hy with rfl | hy
      · rw [← hm]; exact foldl_min_le_init xs y
      · rw [← hm]; exact foldl_min_le_of_mem xs x y hy

/-- Claim C8, witness: on the trajectory [3, 1, 2] the fitness is the
minimum 1, which is below the final value 2. -/
theorem trial_fitness_is_min_witness :
    (1:ℚ) ∈ ([3, 1, 2] : List ℚ) ∧ ∀ x ∈ ([3, 1, 2] : List ℚ), 1 ≤ x :=
  trial_fitness_is_min [3, 1, 2] 1 (by decide)

/-- A sum of squares is nonnegative. -/
theorem sumSq_nonneg (l : List ℝ) : 0 ≤ sumSq l := by
  refine List.sum_nonneg ?_
  intro x hx
  obtain ⟨y, _, rfl⟩ := List.mem_map.mp hx
  positivity

/-- A list of nonnegative reals with a positive member has a positive sum. -/
theorem list_sum_pos_of_mem {l : List ℝ} (hnn : ∀ y ∈ l, 0 ≤ y) {x : ℝ} (hx : x ∈ l)
    (hpos : 0 < x) : 0 < l.sum := by
  obtain ⟨s, t, rfl⟩ := List.append_of_mem hx
  rw [List.sum_append, List.sum_cons]
  have hs : 0 ≤ s.sum := List.sum_nonneg (fun y hy => hnn y (by simp [hy]))
  have ht : 0 ≤ t.sum := List.sum_nonneg (fun y hy => hnn y (by simp [hy]))
  linarith

/-- A tensor with a nonzero entry has positive sum of squares. -/
theorem sumSq_pos {l : List ℝ} {x : ℝ} (hx : x ∈ l) (hne : x ≠ 0) : 0 < sumSq l := by
  refine list_sum_pos_of_mem ?_ (List.mem_map_of_mem (fun y => y ^ 2) hx) ?_
  · intro y hy
    obtain ⟨z, _, rfl⟩ := List.mem_map.mp hy
    positivity
  · positivity

/-- Dividing every element of a list divides its sum. -/
theorem list_sum_map_div (l : List ℝ) (c : ℝ) :
    (l.map (fun x => x / c)).sum = l.sum / c := by
  induction l with
  | nil => simp
  | cons x xs ih => simp [ih, add_div]

/-- Dividing every tensor entry by c divides the sum of squares by c squared. -/
theorem sumSq_map_div (l : List ℝ) (c : ℝ) :
    sumSq (l.map (fun x => x / c)) = sumSq l / c ^ 2 := by
  unfold sumSq
  rw [List.map_map]
  have hcomp : ((fun x => x ^ 2) ∘ fun x => x / c) = fun x => x ^ 2 / c ^ 2 := by
    funext x
    simp [Function.comp, div_pow]
  rw [hcomp, ← list_sum_map_div (l.map (fun x => x ^ 2)) (c ^ 2), List.map_map]
  rfl

/-- The squared L2 norm of a tensor is its sum of squares. -/
theorem l2norm_sq (l : List ℝ) : l2norm l ^ 2 = sumSq l :=
  Real.sq_sqrt (sumSq_nonneg l)

/-- The pooled gradient norm is the square root of the total sum of squares. -/
theorem grad_norm_eq (gs : List (List ℝ)) :
    grad_norm gs = Real.sqrt ((gs.map sumSq).sum) := by
  unfold grad_norm
  congr 1
  exact congrArg List.sum (List.map_congr_left fun g _ => l2norm_sq g)

/-- Claim C9, confirmed.  After masking, the intervened parameters' gradients
are each divided by their pooled global L2 norm with no zero-guard: whenever
at least one pooled gradient entry is nonzero the pooled norm of the divided
gradients is exactly 1, and whenever the mask has zeroed every gradient entry
the divisor grad_norm itself is 0, so the division is the unguarded x / 0 of
IEEE floats and the update is not well-defined. -/
theorem grad_normalization_unit_norm (gs : List (List ℝ)) :
    ((∃ g ∈ gs, ∃ x ∈ g, x ≠ 0) → grad_norm (normalize_grads gs) = 1) ∧
    ((∀ g ∈ gs, ∀ x ∈ g, x = 0) → grad_norm gs = 0) := by
  constructor
  · rintro ⟨g, hg, x, hx, hxne⟩
    have hT : 0 < (gs.map sumSq).sum := by
      refine list_sum_pos_of_mem ?_ (List.mem_map_of_mem sumSq hg) (sumSq_pos hx hxne)
      intro y hy
      obtain ⟨g', _, rfl⟩ := List.mem_map.mp hy
      exact sumSq_nonneg g'
    have hmaps : (normalize_grads gs).map sumSq =
        (gs.map sumSq).map (fun s => s / (grad_norm gs) ^ 2) := by
      unfold normalize_grads
      rw [List.map_map, List.map_map]
      exact List.map_congr_left fun g' _ => sumSq_map_div g' (grad_norm gs)
    rw [grad_norm_eq, hmaps, list_sum_map_div]
    have hsq : grad_norm gs ^ 2 = (gs.map sumSq).sum := by
      rw [grad_norm_eq]
      exact Real.sq_sqrt (le_of_lt hT)
    rw [hsq, div_self (ne_of_gt hT), Real.sqrt_one]
  · intro hz
    rw [grad_norm_eq]
    have hzero : (gs.map sumSq).sum = 0 := by
      refine List.sum_eq_zero ?_
      intro y hy
      obtain ⟨g, hg, rfl⟩ := List.mem_map.mp hy
      refine List.sum_eq_zero ?_
      intro z hzz
      obtain ⟨w, hw, rfl⟩ := List.mem_map.mp hzz
      rw [hz g hg w hw]
      ring
    rw [hzero, Real.sqrt_zero]

/-- Claim C9, witness: the pooled gradient [3, 4] has a nonzero entry and
normalizes to pooled norm 1, while the all-zero pooled gradient [0, 0] has
divisor 0. -/
theorem grad_normalization_unit_norm_witness :
    grad_norm (normalize_grads [[3, 4]]) = 1 ∧ grad_norm [[0, 0]] = 0 :=
  ⟨(grad_normalization_unit_norm [[3, 4]]).1 ⟨[3, 4], by simp, 3, by simp, by norm_num⟩,
   (grad_normalization_unit_norm [[0, 0]]).2 (by
      intro g hg x hx
      simp at hg
      subst hg
      simpa using hx)⟩

/-- Claim C10, confirmed.  load_circuit deletes from the loaded mapping every
entry whose parameter name contains the substring "embed" and returns the
rest: the result is a sublist of the loaded mapping (entries unchanged and in
order), no returned entry's name contains "embed", and every entry whose name
does not contain "embed" is returned. -/
theorem load_circuit_removes_embed {T : Type} (circ : List (List Char × T)) :
    List.Sublist (load_circuit circ) circ ∧
      (∀ e ∈ load_circuit circ, containsSub "embed".toList e.1 = false) ∧
      (∀ e ∈ circ, containsSub "embed".toList e.1 = false → e ∈ load_circuit circ) := by
  refine ⟨List.filter_sublist _, ?_, ?_⟩
  · intro e he
    have hmem := List.of_mem_filter he
    simpa using hmem
  · intro e he hc
    exact List.mem_filter.mpr ⟨he, by simpa using hc⟩

/-- Claim C10, witness: from a circuit with an embedding entry and a dense
entry, the dense entry survives load_circuit unchanged. -/
theorem load_circuit_removes_embed_witness :
    ("net.dense.w".toList, (2:ℚ)) ∈
      load_circuit [("net.embed_in.w".toList, (1:ℚ)), ("net.dense.w".toList, 2)] :=
  (load_circuit_removes_embed
      [("net.embed_in.w".toList, (1:ℚ)), ("net.dense.w".toList, 2)]).2.2
    ("net.dense.w".toList, 2) (by decide) (by decide)
